import Mathlib

/-!
# Zookeeper physical backend (`src/physical/zookeeper.go`)

A shallow embedding of the Zookeeper storage backend: the root-path
normalisation of `newZookeeperBackend`, ancestor materialisation
(`ensurePath`) and the four operations `Put`, `Get`, `Delete`, `List`.

Go strings are modelled as lists of characters (`Str`), a Go `[]byte` as an
optional list of bytes (`none` is the nil slice, which the source tests with
`value == nil`), a Go `error` as an optional `ZkError` (`none` is `nil`).

The coordination-service client (`*zk.Conn`) is an external collaborator.
It is embedded twice:

* `Client σ`: an arbitrary client over a state type `σ`.  Every call takes the
  state and returns its Go results together with the next state, so a value of
  this type can answer any call in any way (failures and interleaved writers
  included).  The backend operations are defined over this interface.
* `zkClient`: a reference tree store over `ZkTree` that follows the znode
  semantics of ZooKeeper: every call refuses a path that is not a valid znode
  path (`validPath`), the root `/` always exists, the parent must exist on
  create, data versions are checked on set and delete unless the version is
  `-1`, and a node with children is not deleted.  All znodes are persistent and
  open to everyone, as the ones the backend creates are.
-/

/-! ## Strings -/

/-- A Go string, as its list of characters. -/
abbrev Str := List Char

/-- A Go `[]byte`; `none` is the nil slice. -/
abbrev Bytes := Option (List (Fin 256))

/-- Go `strings.Split(s, sep)` for a one-character separator: the segments of
`s` between occurrences of `sep`; never empty (`Split "" = [""]`). -/
def Split (s : Str) (sep : Char) : List Str :=
  match s with
  | [] => [[]]
  | c :: cs =>
    if c = sep then [] :: Split cs sep
    else match Split cs sep with
      | [] => [[c]]
      | seg :: rest => (c :: seg) :: rest

/-- Go `unicode.IsSpace`: the Latin-1 spaces and the Unicode White_Space
code points. -/
def isSpace (c : Char) : Bool :=
  let n := c.toNat
  n == 0x09 || n == 0x0A || n == 0x0B || n == 0x0C || n == 0x0D || n == 0x20 ||
  n == 0x85 || n == 0xA0 || n == 0x1680 || (0x2000 ≤ n && n ≤ 0x200A) ||
  n == 0x2028 || n == 0x2029 || n == 0x202F || n == 0x205F || n == 0x3000

/-- Go `strings.TrimSpace`: leading and trailing white space removed. -/
def TrimSpace (s : Str) : Str :=
  ((s.dropWhile isSpace).reverse.dropWhile isSpace).reverse

/-- Go `strings.HasPrefix`. -/
def HasPrefix (s pre : Str) : Bool := pre.isPrefixOf s

/-- Go `strings.HasSuffix`. -/
def HasSuffix (s suf : Str) : Bool := suf.isSuffixOf s

/-- Go `strings.TrimSuffix`: `s` without the trailing `suf`, when it has it. -/
def TrimSuffix (s suf : Str) : Str :=
  if HasSuffix s suf then s.take (s.length - suf.length) else s

/-- Go string comparison `a <= b`: lexicographic on the bytes of the UTF-8
encoding, which is the lexicographic order on code points. -/
def strLe : Str → Str → Bool
  | [], _ => true
  | _ :: _, [] => false
  | a :: as, b :: bs => decide (a.toNat < b.toNat) || (a == b && strLe as bs)

/-- Go `sort.Strings`: the list in increasing order.  The order is total and
antisymmetric, so the sorted result is unique whatever algorithm produces it;
insertion sort computes it. -/
def sortStrings (l : List Str) : List Str :=
  l.insertionSort (fun a b => strLe a b = true)

/-! ## The client interface -/

/-- Errors of the coordination-service client. -/
inductive ZkError where
  | ErrNoNode
  | ErrNodeExists
  | ErrBadVersion
  | ErrNotEmpty
  | ErrConnectionClosed
  | ErrSessionExpired
  | ErrInvalidPath
  | ErrBadArguments
  deriving DecidableEq

/-- An access-control entry (`zk.ACL`). -/
structure ACL where
  Perms : Nat
  Scheme : Str
  ID : Str
  deriving DecidableEq

/-- The permission mask `zk.PermAll`. -/
def PermAll : Nat := 0x1f

/-- The list `zk.WorldACL(perms)`. -/
def WorldACL (perms : Nat) : List ACL :=
  [{ Perms := perms, Scheme := "world".toList, ID := "anyone".toList }]

/-- The calls of `*zk.Conn` the backend uses.  Each call returns the results
the backend reads (the `*Stat` results, which it always discards, are left
out) and the state of the store after the call. -/
structure Client (σ : Type) where
  Exists : Str → σ → (Bool × Option ZkError) × σ
  Create : Str → Bytes → Int → List ACL → σ → Option ZkError × σ
  Set : Str → Bytes → Int → σ → Option ZkError × σ
  Get : Str → σ → (Bytes × Option ZkError) × σ
  Delete : Str → Int → σ → Option ZkError × σ
  Children : Str → σ → (List Str × Option ZkError) × σ

/-- An entry of the flat key/value interface. -/
structure Entry where
  Key : Str
  Value : Bytes
  deriving DecidableEq

/-- The backend: its root path and its client. -/
structure ZookeeperBackend (σ : Type) where
  path : Str
  client : Client σ

/-- The error of a failed backend construction. -/
inductive SetupError where
  | clientSetupFailed (err : ZkError)
  deriving DecidableEq

/-! ## The backend (`zookeeper.go`) -/

/-- The constructor `newZookeeperBackend`; `Connect` stands for `zk.Connect`
and `conf` for the configuration map. -/
def newZookeeperBackend {σ : Type} (Connect : List Str → Except ZkError (Client σ))
    (conf : Str → Option Str) : Except SetupError (ZookeeperBackend σ) :=
  let path := match conf "path".toList with
    | some p => p
    | none => "vault/".toList
  let path := if !HasSuffix path ['/'] then path ++ ['/'] else path
  let path := if !HasPrefix path ['/'] then ['/'] ++ path else path
  let machines := Split ((conf "address".toList).getD []) ','
  match Connect machines with
  | .error err => .error (.clientSetupFailed err)
  | .ok client => .ok { path := path, client := client }

/-- One iteration of the loop of `ensurePath` on the segment `node`: the
state is the running `fullPath` and the store. -/
def ensureStep {σ : Type} (client : Client σ) (st : Str × σ) (node : Str) : Str × σ :=
  if TrimSpace node ≠ [] then
    let fullPath := st.1 ++ '/' :: node
    let r := client.Exists fullPath st.2
    if !r.1.1 then
      (fullPath, (client.Create fullPath none 0 (WorldACL PermAll) r.2).2)
    else
      (fullPath, r.2)
  else st

/-- The method `ensurePath`: no result, only the effect on the store. -/
def ZookeeperBackend.ensurePath {σ : Type} (c : ZookeeperBackend σ) (path : Str) (s : σ) : σ :=
  let nodes := Split path '/'
  (nodes.foldl (ensureStep c.client) ([], s)).2

/-- The method `Put`. -/
def ZookeeperBackend.Put {σ : Type} (c : ZookeeperBackend σ) (entry : Entry) (s : σ) :
    Option ZkError × σ :=
  let fullPath := c.path ++ entry.Key
  let s1 := c.ensurePath fullPath s
  c.client.Set fullPath entry.Value 0 s1

/-- The method `Get`. -/
def ZookeeperBackend.Get {σ : Type} (c : ZookeeperBackend σ) (key : Str) (s : σ) :
    (Option Entry × Option ZkError) × σ :=
  let fullPath := c.path ++ key
  let s1 := c.ensurePath fullPath s
  let r := c.client.Get fullPath s1
  if r.1.2 ≠ none then ((none, r.1.2), r.2)
  else if r.1.1 = none then ((none, none), r.2)
  else ((some { Key := key, Value := r.1.1 }, none), r.2)

/-- The method `Delete`. -/
def ZookeeperBackend.Delete {σ : Type} (c : ZookeeperBackend σ) (key : Str) (s : σ) :
    Option ZkError × σ :=
  let fullPath := c.path ++ key
  let r := c.client.Exists fullPath s
  if r.1.2 ≠ none then (r.1.2, r.2)
  else if r.1.1 then c.client.Delete fullPath (-1) r.2
  else (none, r.2)

/-- One iteration of the loop of `List` on the child `key`: the state is the
slice `children` and the store. -/
def listStep {σ : Type} (client : Client σ) (fullPath : Str) (st : List Str × σ) (key : Str) :
    List Str × σ :=
  let children := st.1 ++ [key]
  let r := client.Children (fullPath ++ '/' :: key) st.2
  if r.1.1.length > 0 then (children ++ [key ++ ['/']], r.2)
  else (children, r.2)

/-- The method `List`.  A nil `[]string` and an empty one behave alike in the
source (`range`, `len`), so both are the empty list. -/
def ZookeeperBackend.List {σ : Type} (c : ZookeeperBackend σ) (pfx : Str) (s : σ) :
    (List Str × Option ZkError) × σ :=
  let fullPath := TrimSuffix (c.path ++ pfx) ['/']
  let s1 := c.ensurePath fullPath s
  let r := c.client.Children fullPath s1
  let loop := r.1.1.foldl (listStep c.client fullPath) ([], r.2)
  ((sortStrings loop.1, none), loop.2)

/-! ## The reference tree store -/

/-- A znode: its content (`none` is null content) and its data version. -/
structure Znode where
  data : Bytes
  version : Int
  deriving DecidableEq

/-- The tree store: the znodes, by absolute path.  The root `/` always
exists; it has an entry only once its content was set. -/
abbrev ZkTree := List (Str × Znode)

/-- The code points the store accepts in a path: no control characters
(`0x00`-`0x1F`, `0x7F`-`0x9F`), no surrogate or private-use code unit
(`0xD800`-`0xF8FF`, which covers every code point above `0xFFFF` in the
store's own encoding) and none of `0xFFF0`-`0xFFFF`. -/
def pathChar (c : Char) : Bool :=
  let n := c.toNat
  (0x20 ≤ n && n ≤ 0x7E) || (0xA0 ≤ n && n ≤ 0xD7FF) || (0xF900 ≤ n && n ≤ 0xFFEF)

/-- A valid node name: not empty, not `.` and not `..`, of accepted code
points. -/
def validName (n : Str) : Bool :=
  n != [] && n != ['.'] && n != ['.', '.'] && n.all pathChar

/-- A valid znode path: the root `/`, or `/` followed by valid node names
joined by `/` (so no trailing `/` and no empty name). -/
def validPath (p : Str) : Bool :=
  p == ['/'] ||
    match Split p '/' with
    | [] :: seg :: segs => (seg :: segs).all validName
    | _ => false

/-- The entry at path `p`, if there is one.  Paths are compared as they are
written: the store does not normalise them. -/
def zkLookup (p : Str) : ZkTree → Option Znode
  | [] => none
  | (q, z) :: t => if q = p then some z else zkLookup p t

/-- The root znode before its content is set: empty content, data
version 0. -/
def rootNode : Znode := { data := some [], version := 0 }

/-- The znode at path `p`, if there is one: its entry, and for the root
without an entry the initial root znode. -/
def zkNode (p : Str) (t : ZkTree) : Option Znode :=
  match zkLookup p t with
  | some z => some z
  | none => if p = ['/'] then some rootNode else none

/-- The path of the parent: what stands before the last `/` (empty for a
child of the root). -/
def parentPath (p : Str) : Str :=
  ((p.reverse.dropWhile (fun ch => ch != '/')).drop 1).reverse

/-- The rest of `q` after the leading `p`, if `q` starts with `p`. -/
def dropLeading : Str → Str → Option Str
  | [], q => some q
  | _ :: _, [] => none
  | a :: p, b :: q => if a = b then dropLeading p q else none

/-- The name under which `q` is a child of `p`, if it is one. -/
def childName (p q : Str) : Option Str :=
  match dropLeading (if p = ['/'] then ['/'] else p ++ ['/']) q with
  | some n => if validName n = true ∧ '/' ∉ n then some n else none
  | none => none

/-- The names of the children of `p` in the tree. -/
def zkChildNames (p : Str) (t : ZkTree) : List Str :=
  t.filterMap (fun e => childName p e.1)

/-- The call `exists`. -/
def zkExists (p : Str) (t : ZkTree) : (Bool × Option ZkError) × ZkTree :=
  if validPath p then (((zkNode p t).isSome, none), t)
  else ((false, some .ErrInvalidPath), t)

/-- The call `create` (persistent, non-sequential: the only flags the backend
passes): the path must be valid, the parent must exist, the node must not; the
new node has data version 0. -/
def zkCreate (p : Str) (data : Bytes) (_flags : Int) (_acl : List ACL) (t : ZkTree) :
    Option ZkError × ZkTree :=
  if !validPath p then (some .ErrInvalidPath, t)
  else if parentPath p ≠ [] ∧ (zkNode (parentPath p) t).isNone then (some .ErrNoNode, t)
  else if (zkNode p t).isSome then (some .ErrNodeExists, t)
  else (none, t ++ [(p, { data := data, version := 0 })])

/-- Every entry at path `p` rewritten by `f`. -/
def zkModify (p : Str) (f : Znode → Znode) (t : ZkTree) : ZkTree :=
  t.map (fun e => if e.1 = p then (e.1, f e.2) else e)

/-- The tree with the content of the znode at `p` replaced and its data
version incremented (the root gets its entry when it has none). -/
def zkWrite (p : Str) (data : Bytes) (t : ZkTree) : ZkTree :=
  if (zkLookup p t).isSome then
    zkModify p (fun z => { data := data, version := z.version + 1 }) t
  else t ++ [(p, { data := data, version := rootNode.version + 1 })]

/-- The call `set`: the path must be valid, the node must exist and, unless
`version` is `-1`, have that data version; the content is replaced and the
version incremented. -/
def zkSet (p : Str) (data : Bytes) (version : Int) (t : ZkTree) : Option ZkError × ZkTree :=
  if !validPath p then (some .ErrInvalidPath, t)
  else match zkNode p t with
    | none => (some .ErrNoNode, t)
    | some z =>
      if version ≠ -1 ∧ version ≠ z.version then (some .ErrBadVersion, t)
      else (none, zkWrite p data t)

/-- The call `get`. -/
def zkGet (p : Str) (t : ZkTree) : (Bytes × Option ZkError) × ZkTree :=
  if !validPath p then ((none, some .ErrInvalidPath), t)
  else match zkNode p t with
    | none => ((none, some .ErrNoNode), t)
    | some z => ((z.data, none), t)

/-- The call `delete`: the path must be valid and not the root, the node must
exist, match the version unless it is `-1`, and have no children. -/
def zkDelete (p : Str) (version : Int) (t : ZkTree) : Option ZkError × ZkTree :=
  if !validPath p then (some .ErrInvalidPath, t)
  else if p = ['/'] then (some .ErrBadArguments, t)
  else match zkLookup p t with
    | none => (some .ErrNoNode, t)
    | some z =>
      if version ≠ -1 ∧ version ≠ z.version then (some .ErrBadVersion, t)
      else if zkChildNames p t ≠ [] then (some .ErrNotEmpty, t)
      else (none, t.filter (fun e => e.1 ≠ p))

/-- The call `children`. -/
def zkChildren (p : Str) (t : ZkTree) : (List Str × Option ZkError) × ZkTree :=
  if !validPath p then (([], some .ErrInvalidPath), t)
  else match zkNode p t with
    | none => (([], some .ErrNoNode), t)
    | some _ => ((zkChildNames p t, none), t)

/-- The reference tree store as a client. -/
def zkClient : Client ZkTree where
  Exists := zkExists
  Create := zkCreate
  Set := zkSet
  Get := zkGet
  Delete := zkDelete
  Children := zkChildren

/-- The backend with root path `root` over the reference tree store. -/
def zkBackend (root : Str) : ZookeeperBackend ZkTree := { path := root, client := zkClient }

/-! ## Specification-side definitions -/

/-- The segments joined with a leading `/` each. -/
def joinSegs : List Str → Str
  | [] => []
  | n :: ns => '/' :: n ++ joinSegs ns

/-- The running paths of `path`: split on `/`, drop the segments that are
empty once white space is trimmed, and join the first `i` remaining segments
with a leading `/` each, for every `i` from 1 to their number. -/
def runningPaths (path : Str) : List Str :=
  (((Split path '/').filter (fun n => TrimSpace n ≠ [])).inits.drop 1).map joinSegs

/-- The paths `ensurePath` visits from the running path `acc` on the
segments `nodes`, in order. -/
def runFrom (acc : Str) : List Str → List Str
  | [] => []
  | n :: ns =>
    if TrimSpace n ≠ [] then (acc ++ '/' :: n) :: runFrom (acc ++ '/' :: n) ns
    else runFrom acc ns

/-- A path that is `/` followed by one or more segments, none of them empty
once white space is trimmed, joined by `/`. -/
def cleanPath (p : Str) : Bool :=
  match Split p '/' with
  | [] :: seg :: segs => (seg :: segs).all (fun n => TrimSpace n != [])
  | _ => false

/-- The znode `ensurePath` creates: null content, data version 0. -/
def emptyNode : Znode := { data := none, version := 0 }

/-- The tree with an empty znode at `q` added when there is none. -/
def touch (t : ZkTree) (q : Str) : ZkTree :=
  if (zkLookup q t).isSome then t else t ++ [(q, emptyNode)]

/-- The segments joined by `/`. -/
def unsplit : List Str → Str
  | [] => []
  | [a] => a
  | a :: b :: r => a ++ '/' :: unsplit (b :: r)

/-- The children an enumeration of `p` yields, a failed enumeration counting
as empty. -/
def enumerated {σ : Type} (client : Client σ) (p : Str) (s : σ) : List Str :=
  if (client.Children p s).1.2 = none then (client.Children p s).1.1 else []

/-- The entries `List` emits for the children `kids` of `fullPath`: each name,
followed by the name with a trailing `/` when the enumeration of its own
children is non-empty. -/
def listEntries {σ : Type} (client : Client σ) (fullPath : Str) (s : σ) (kids : List Str) :
    List Str :=
  kids.flatMap (fun ch =>
    if enumerated client (fullPath ++ '/' :: ch) s ≠ [] then [ch, ch ++ ['/']] else [ch])

/-- The reference listing of `pfx` on the store `s`: the entries for the
children of the trimmed path, sorted. -/
def listReference {σ : Type} (c : ZookeeperBackend σ) (pfx : Str) (s : σ) : List Str :=
  sortStrings (listEntries c.client (TrimSuffix (c.path ++ pfx) ['/']) s
    (enumerated c.client (TrimSuffix (c.path ++ pfx) ['/']) s))

/-- The running paths as they would be if exactly the empty segments were
skipped. -/
def runningPathsSkippingEmpty (path : Str) : List Str :=
  (((Split path '/').filter (fun n => n ≠ [])).inits.drop 1).map joinSegs

/-- The reference tree store with the connection lost during ancestor
materialisation: `exists` and `create` fail, the other calls are served. -/
def zkClientMaterializationDown : Client ZkTree where
  Exists := fun _ t => ((false, some .ErrConnectionClosed), t)
  Create := fun _ _ _ _ t => (some .ErrConnectionClosed, t)
  Set := zkSet
  Get := zkGet
  Delete := zkDelete
  Children := zkChildren

/-- The reference tree store with failing enumerations: `children` fails, the
other calls are served. -/
def zkClientChildrenDown : Client ZkTree where
  Exists := zkExists
  Create := zkCreate
  Set := zkSet
  Get := zkGet
  Delete := zkDelete
  Children := fun _ t => (([], some .ErrConnectionClosed), t)

/-- The backend of the default configuration over the reference tree store. -/
def vault : ZookeeperBackend ZkTree := zkBackend "/vault/".toList

/-- The store after the keys `a`, `b/c` and `b/d` were put into the empty
store. -/
def abcTree : ZkTree :=
  (vault.Put { Key := "b/d".toList, Value := some [3] }
    (vault.Put { Key := "b/c".toList, Value := some [2] }
      (vault.Put { Key := "a".toList, Value := some [1] } []).2).2).2

/-- The root path `newZookeeperBackend` computes from the configured path. -/
def normalizedRoot (p : Str) : Str :=
  let p1 := if !HasSuffix p ['/'] then p ++ ['/'] else p
  if !HasPrefix p1 ['/'] then ['/'] ++ p1 else p1

/-- The path with a `/` added in front when it has none and a `/` added
behind when it has none. -/
def padded (p : Str) : Str :=
  (if HasPrefix p ['/'] then [] else ['/']) ++ p ++ (if HasSuffix p ['/'] then [] else ['/'])

/-- A configuration with the given `path` and no `address`. -/
def confPath (p : Str) : Str → Option Str :=
  fun k => if k = "path".toList then some p else none

/-- A configuration with no `path`. -/
def confNoPath : Str → Option Str := fun _ => none

/-- A `zk.Connect` that succeeds with the reference tree store. -/
def connectZk : List Str → Except ZkError (Client ZkTree) := fun _ => .ok zkClient

/-! ## Strings: lemmas -/

theorem Split_ne_nil (s : Str) (sep : Char) : Split s sep ≠ [] := by
  induction s with
  | nil => simp [Split]
  | cons c cs ih =>
    unfold Split
    split
    · simp
    · split <;> simp

theorem Split_no_sep (s : Str) (sep : Char) : ∀ seg ∈ Split s sep, sep ∉ seg := by
  induction s with
  | nil => simp [Split]
  | cons c cs ih =>
    unfold Split
    split
    · intro seg hseg
      rcases List.mem_cons.1 hseg with h | h
      · subst h; simp
      · exact ih seg h
    · rename_i hc
      split
      · intro seg hseg
        simp at hseg
        subst hseg
        simp
        exact fun h => hc h.symm
      · rename_i seg0 rest heq
        intro seg hseg
        rw [heq] at ih
        rcases List.mem_cons.1 hseg with h | h
        · subst h
          have := ih seg0 (by simp)
          simp
          exact ⟨fun h => hc h.symm, this⟩
        · exact ih seg (by simp [h])

theorem unsplit_Split (s : Str) : unsplit (Split s '/') = s := by
  induction s with
  | nil => simp [Split, unsplit]
  | cons c cs ih =>
    unfold Split
    split
    · rename_i hc
      subst hc
      have hne := Split_ne_nil cs '/'
      cases h : Split cs '/' with
      | nil => exact absurd h hne
      | cons a r =>
        rw [h] at ih
        simp [unsplit, ih]
    · cases h : Split cs '/' with
      | nil => exact absurd h (Split_ne_nil cs '/')
      | cons a r =>
        rw [h] at ih
        simp only
        cases r with
        | nil => simp [unsplit] at ih ⊢; exact ih
        | cons b r' => simp [unsplit] at ih ⊢; exact ih

theorem unsplit_cons (a : Str) (r : List Str) : unsplit (a :: r) = a ++ joinSegs r := by
  induction r generalizing a with
  | nil => simp [unsplit, joinSegs]
  | cons b r ih => simp [unsplit, joinSegs, ih b]

theorem joinSegs_append (l₁ l₂ : List Str) : joinSegs (l₁ ++ l₂) = joinSegs l₁ ++ joinSegs l₂ := by
  induction l₁ with
  | nil => simp [joinSegs]
  | cons a l ih => simp [joinSegs, ih]

theorem runFrom_eq (acc : Str) (nodes : List Str) :
    runFrom acc nodes
      = ((nodes.filter (fun n => TrimSpace n ≠ [])).inits.drop 1).map (fun l => acc ++ joinSegs l) := by
  induction nodes generalizing acc with
  | nil => simp [runFrom]
  | cons n ns ih =>
    unfold runFrom
    by_cases h : TrimSpace n ≠ []
    · simp only [h, if_true, ne_eq, not_false_eq_true, decide_True, List.filter_cons_of_pos,
        List.inits_cons, List.drop_succ_cons, List.drop_zero]
      rw [ih]
      have : ((ns.filter (fun n => decide (TrimSpace n ≠ []))).inits) =
          [] :: (ns.filter (fun n => decide (TrimSpace n ≠ []))).inits.drop 1 := by
        cases (ns.filter (fun n => decide (TrimSpace n ≠ []))) <;> simp
      conv_rhs => rw [this]
      simp [joinSegs, List.map_map, Function.comp_def]
    · simp only [h, if_false]
      rw [ih]
      simp at h
      simp [h]

theorem runFrom_nil_eq_runningPaths (path : Str) :
    runFrom [] (Split path '/') = runningPaths path := by
  rw [runFrom_eq]; simp [runningPaths]

theorem mem_runFrom_last (acc : Str) (n : Str) (ns : List Str)
    (h : ∀ m ∈ n :: ns, TrimSpace m ≠ []) : acc ++ joinSegs (n :: ns) ∈ runFrom acc (n :: ns) := by
  induction ns generalizing acc n with
  | nil =>
    have := h n (by simp)
    simp [runFrom, this, joinSegs]
  | cons m ms ih =>
    have hn := h n (by simp)
    have := ih (acc ++ '/' :: n) m (fun x hx => h x (by simp at hx ⊢; tauto))
    unfold runFrom
    simp only [hn, if_true, ne_eq, not_false_eq_true]
    apply List.mem_cons_of_mem
    simpa [joinSegs] using this

theorem cleanPath_mem_runningPaths (p : Str) (h : cleanPath p = true) : p ∈ runningPaths p := by
  rw [← runFrom_nil_eq_runningPaths]
  unfold cleanPath at h
  have hu := unsplit_Split p
  split at h
  · rename_i seg segs heq
    rw [heq] at hu ⊢
    rw [unsplit_cons] at hu
    have hall : ∀ m ∈ seg :: segs, TrimSpace m ≠ [] := by
      intro m hm
      have := List.all_eq_true.1 h m hm
      simpa using this
    have := mem_runFrom_last [] seg segs hall
    simp at hu
    rw [hu] at this
    simpa [runFrom, TrimSpace] using this
  · exact absurd h (by simp)

/-! ## The reference tree store: lemmas -/

theorem zkLookup_append_of_isSome (p : Str) (t u : ZkTree) (h : (zkLookup p t).isSome = true) :
    zkLookup p (t ++ u) = zkLookup p t := by
  induction t with
  | nil => simp [zkLookup] at h
  | cons e t ih =>
    obtain ⟨q, z⟩ := e
    by_cases hq : q = p
    · simp [zkLookup, hq]
    · simp [zkLookup, hq] at h ⊢
      exact ih h

theorem zkLookup_append_of_none (p : Str) (t u : ZkTree) (h : zkLookup p t = none) :
    zkLookup p (t ++ u) = zkLookup p u := by
  induction t with
  | nil => simp
  | cons e t ih =>
    obtain ⟨q, z⟩ := e
    by_cases hq : q = p
    · simp [zkLookup, hq] at h
    · simp [zkLookup, hq] at h ⊢
      exact ih h

theorem zkLookup_touch (p q : Str) (t : ZkTree) :
    zkLookup p (touch t q) =
      if (zkLookup p t).isSome then zkLookup p t
      else if p = q then some emptyNode else none := by
  by_cases hq : (zkLookup q t).isSome = true
  · have ht : touch t q = t := by simp [touch, hq]
    rw [ht]
    by_cases hp : (zkLookup p t).isSome = true
    · simp [hp]
    · have hne : p ≠ q := by
        intro h; subst h; exact hp hq
      simp only [hp, hne, if_false]
      simpa using hp
  · have ht : touch t q = t ++ [(q, emptyNode)] := by simp [touch, hq]
    rw [ht]
    by_cases hp : (zkLookup p t).isSome = true
    · simp only [hp, if_true]
      exact zkLookup_append_of_isSome p t _ hp
    · have hp' : zkLookup p t = none := by simpa using hp
      rw [zkLookup_append_of_none p t _ hp']
      simp only [hp, if_false]
      by_cases h : p = q
      · simp [zkLookup, h]
      · have h' : ¬ q = p := fun e => h e.symm
        simp [zkLookup, h, h']

theorem zkLookup_foldl_touch (p : Str) (qs : List Str) (t : ZkTree) :
    zkLookup p (qs.foldl touch t) =
      if (zkLookup p t).isSome then zkLookup p t
      else if p ∈ qs then some emptyNode else none := by
  induction qs generalizing t with
  | nil => 
    by_cases hp : (zkLookup p t).isSome = true
    · simp [hp]
    · simp only [List.foldl_nil, hp, if_false, List.not_mem_nil]
      simpa using hp
  | cons q qs ih =>
    simp only [List.foldl_cons]
    rw [ih (touch t q), zkLookup_touch]
    by_cases hp : (zkLookup p t).isSome = true
    · simp [hp]
    · simp only [hp, if_false]
      by_cases h : p = q
      · simp [h]
      · simp [h]

theorem foldl_touch_id (qs : List Str) (t : ZkTree)
    (h : ∀ q ∈ qs, (zkLookup q t).isSome = true) : qs.foldl touch t = t := by
  induction qs with
  | nil => rfl
  | cons q qs ih =>
    have hq := h q (by simp)
    simp only [List.foldl_cons]
    have : touch t q = t := by simp [touch, hq]
    rw [this]
    exact ih (fun x hx => h x (by simp [hx]))

theorem parentPath_append (acc node : Str) (h : '/' ∉ node) :
    parentPath (acc ++ '/' :: node) = acc := by
  unfold parentPath
  have h1 : (acc ++ '/' :: node).reverse = node.reverse ++ '/' :: acc.reverse := by simp
  rw [h1]
  have h2 : ∀ (l r : Str), (∀ x ∈ l, x ≠ '/') →
      (l ++ '/' :: r).dropWhile (fun ch => ch != '/') = '/' :: r := by
    intro l r hl
    induction l with
    | nil => simp [List.dropWhile]
    | cons a l ih =>
      have ha := hl a (by simp)
      simp only [List.cons_append, List.dropWhile_cons]
      simp [ha]
      exact ih (fun x hx => hl x (by simp [hx]))
  rw [h2]
  · simp
  · intro x hx hx'
    subst hx'
    exact h (by simpa using hx)

theorem Split_of_no_sep (s : Str) (h : '/' ∉ s) : Split s '/' = [s] := by
  induction s with
  | nil => simp [Split]
  | cons c cs ih =>
    have hc : ¬ c = '/' := fun e => h (by simp [e])
    have hcs : '/' ∉ cs := fun e => h (by simp [e])
    unfold Split
    rw [if_neg hc, ih hcs]

theorem Split_append_sep (acc node : Str) (h : '/' ∉ node) :
    Split (acc ++ '/' :: node) '/' = Split acc '/' ++ [node] := by
  induction acc with
  | nil =>
    show Split ('/' :: node) '/' = Split [] '/' ++ [node]
    unfold Split
    rw [if_pos rfl, Split_of_no_sep node h]
    simp [Split]
  | cons c cs ih =>
    show Split (c :: (cs ++ '/' :: node)) '/' = Split (c :: cs) '/' ++ [node]
    by_cases hc : c = '/'
    · unfold Split
      rw [if_pos hc, if_pos hc, ih]
      rfl
    · unfold Split
      rw [if_neg hc, if_neg hc, ih]
      cases hs : Split cs '/' with
      | nil => exact absurd hs (Split_ne_nil cs '/')
      | cons s r => rfl

theorem Split_eq_singleton_nil (s : Str) (h : Split s '/' = [[]]) : s = [] := by
  have := unsplit_Split s
  rw [h] at this
  exact this.symm

theorem validPath_of_snoc (acc node : Str) (hn : '/' ∉ node)
    (h : validPath (acc ++ '/' :: node) = true) : acc = [] ∨ validPath acc = true := by
  unfold validPath at h
  rw [Split_append_sep acc node hn] at h
  simp only [Bool.or_eq_true, beq_iff_eq] at h
  rcases h with h | h
  · left
    cases acc with
    | nil => rfl
    | cons a as => simp at h
  · cases hs : Split acc '/' with
    | nil => exact absurd hs (Split_ne_nil acc '/')
    | cons s0 rest =>
      rw [hs] at h
      cases rest with
      | nil =>
        left
        cases s0 with
        | nil => exact Split_eq_singleton_nil acc hs
        | cons a as => simp at h
      | cons s1 rest1 =>
        right
        cases s0 with
        | cons a as => simp at h
        | nil =>
          simp only [List.cons_append] at h
          unfold validPath
          rw [hs]
          simp only [Bool.or_eq_true, beq_iff_eq]
          right
          rw [List.all_eq_true] at h ⊢
          intro x hx
          exact h x (by
            rcases List.mem_cons.1 hx with e | e
            · simp [e]
            · simp [e])

theorem cleanPath_ne_root (p : Str) (h : cleanPath p = true) : p ≠ ['/'] := by
  intro e
  subst e
  revert h
  decide

theorem zkNode_of_ne_root (p : Str) (t : ZkTree) (h : p ≠ ['/']) : zkNode p t = zkLookup p t := by
  unfold zkNode
  cases zkLookup p t with
  | none => simp [h]
  | some z => rfl

theorem snoc_ne_root (acc node : Str) (h : node ≠ []) : acc ++ '/' :: node ≠ ['/'] := by
  intro e
  have hl := congrArg List.length e
  simp at hl
  have : node.length = 0 := by omega
  exact h (List.length_eq_zero.1 this)

theorem ne_nil_of_TrimSpace (node : Str) (hb : TrimSpace node ≠ []) : node ≠ [] := by
  intro e
  subst e
  exact hb rfl

theorem ensureStep_zk (acc node : Str) (t : ZkTree) (hb : TrimSpace node ≠ [])
    (hn : '/' ∉ node)
    (hacc : acc = [] ∨ (zkNode acc t).isSome = true ∨ validPath acc = false) :
    ensureStep zkClient (acc, t) node =
      (acc ++ '/' :: node,
        if validPath (acc ++ '/' :: node) then touch t (acc ++ '/' :: node) else t) := by
  have hne := snoc_ne_root acc node (ne_nil_of_TrimSpace node hb)
  unfold ensureStep
  simp only [hb, if_true, ne_eq, not_false_eq_true, zkClient]
  by_cases hv : validPath (acc ++ '/' :: node) = true
  · have hex : zkExists (acc ++ '/' :: node) t
        = (((zkLookup (acc ++ '/' :: node) t).isSome, none), t) := by
      simp [zkExists, hv, zkNode_of_ne_root _ t hne]
    rw [hex]
    simp only [hv, if_true]
    by_cases hq : (zkLookup (acc ++ '/' :: node) t).isSome = true
    · simp [hq, touch]
    · have hpar : ¬ (parentPath (acc ++ '/' :: node) ≠ [] ∧
          (zkNode (parentPath (acc ++ '/' :: node)) t).isNone = true) := by
        rw [parentPath_append acc node hn]
        rintro ⟨h1, h2⟩
        rw [Option.isNone_iff_eq_none] at h2
        rcases hacc with h | h | h
        · exact h1 h
        · rw [h2] at h
          simp at h
        · rcases validPath_of_snoc acc node hn hv with h' | h'
          · exact h1 h'
          · rw [h'] at h
            simp at h
      have hcr : zkCreate (acc ++ '/' :: node) none 0 (WorldACL PermAll) t
          = (none, t ++ [(acc ++ '/' :: node, emptyNode)]) := by
        unfold zkCreate
        rw [if_neg (by simp [hv]), if_neg hpar, zkNode_of_ne_root _ t hne, if_neg hq]
        rfl
      simp only [hq, touch, if_false]
      rw [hcr]
      simp
  · have hex : zkExists (acc ++ '/' :: node) t = ((false, some .ErrInvalidPath), t) := by
      simp [zkExists, hv]
    have hcr : zkCreate (acc ++ '/' :: node) none 0 (WorldACL PermAll) t
        = (some .ErrInvalidPath, t) := by
      simp [zkCreate, hv]
    rw [hex]
    simp [hcr, hv]

theorem ensure_fold_zk (nodes : List Str) (acc : Str) (t : ZkTree)
    (hn : ∀ n ∈ nodes, '/' ∉ n)
    (hacc : acc = [] ∨ (zkNode acc t).isSome = true ∨ validPath acc = false) :
    (nodes.foldl (ensureStep zkClient) (acc, t)).2
      = ((runFrom acc nodes).filter validPath).foldl touch t := by
  induction nodes generalizing acc t with
  | nil => simp [runFrom]
  | cons n ns ih =>
    simp only [List.foldl_cons]
    by_cases hb : TrimSpace n ≠ []
    · have hne := snoc_ne_root acc n (ne_nil_of_TrimSpace n hb)
      rw [ensureStep_zk acc n t hb (hn n (by simp)) hacc]
      by_cases hv : validPath (acc ++ '/' :: n) = true
      · simp only [hv, if_true]
        rw [ih _ _ (fun x hx => hn x (by simp [hx]))]
        · simp [runFrom, hb, hv]
        · right; left
          rw [zkNode_of_ne_root _ _ hne, zkLookup_touch]
          by_cases h : (zkLookup (acc ++ '/' :: n) t).isSome = true
          · simp [h]
          · simp [h]
      · simp only [hv, if_false]
        rw [ih _ _ (fun x hx => hn x (by simp [hx]))]
        · simp [runFrom, hb, hv]
        · right; right
          simpa using hv
    · have : ensureStep zkClient (acc, t) n = (acc, t) := by
        simp only [ensureStep, hb, if_false]
      rw [this, ih _ _ (fun x hx => hn x (by simp [hx])) hacc]
      simp [runFrom, hb]

theorem ensurePath_zk (root path : Str) (t : ZkTree) :
    (zkBackend root).ensurePath path t
      = ((runningPaths path).filter validPath).foldl touch t := by
  unfold ZookeeperBackend.ensurePath
  simp only [zkBackend]
  rw [ensure_fold_zk _ _ _ (Split_no_sep path '/') (Or.inl rfl), runFrom_nil_eq_runningPaths]

theorem zkLookup_modify (p q : Str) (f : Znode → Znode) (t : ZkTree) :
    zkLookup p (zkModify q f t) = if p = q then (zkLookup p t).map f else zkLookup p t := by
  induction t with
  | nil => simp [zkModify, zkLookup]
  | cons e t ih =>
    obtain ⟨k, z⟩ := e
    have hcons : zkModify q f ((k, z) :: t)
        = (if k = q then (k, f z) else (k, z)) :: zkModify q f t := by
      simp [zkModify]
    rw [hcons]
    by_cases hk : k = q
    · rw [if_pos hk]
      by_cases hp : k = p
      · have hpq : p = q := hp ▸ hk
        simp [zkLookup, hp, hpq]
      · simp only [zkLookup, hp, if_false]
        exact ih
    · rw [if_neg hk]
      by_cases hp : k = p
      · have hpq : ¬ p = q := hp ▸ hk
        simp [zkLookup, hp, hpq]
      · simp only [zkLookup, hp, if_false]
        exact ih

theorem zkLookup_filter (p q : Str) (t : ZkTree) :
    zkLookup p (t.filter (fun e => e.1 ≠ q)) = if p = q then none else zkLookup p t := by
  induction t with
  | nil => simp [zkLookup]
  | cons e t ih =>
    obtain ⟨k, z⟩ := e
    by_cases hk : k = q
    · subst hk
      have : List.filter (fun e : Str × Znode => decide (e.1 ≠ k)) ((k, z) :: t)
          = List.filter (fun e : Str × Znode => decide (e.1 ≠ k)) t := by simp
      rw [this, ih]
      by_cases hp : p = k
      · simp [hp]
      · have hp' : ¬ k = p := fun e => hp e.symm
        simp [hp, zkLookup, hp']
    · have : List.filter (fun e : Str × Znode => decide (e.1 ≠ q)) ((k, z) :: t)
          = (k, z) :: List.filter (fun e : Str × Znode => decide (e.1 ≠ q)) t := by simp [hk]
      rw [this]
      by_cases hp : k = p
      · subst hp; simp [zkLookup, hk]
      · simp only [zkLookup, hp, if_false]
        exact ih

theorem zkLookup_ensurePath (root path q : Str) (t : ZkTree) :
    zkLookup q ((zkBackend root).ensurePath path t) =
      if (zkLookup q t).isSome then zkLookup q t
      else if q ∈ runningPaths path ∧ validPath q = true then some emptyNode else none := by
  rw [ensurePath_zk, zkLookup_foldl_touch]
  simp only [List.mem_filter]

theorem ensurePath_zk_id (root path : Str) (t : ZkTree)
    (h : ∀ q ∈ runningPaths path, validPath q = true → (zkLookup q t).isSome = true) :
    (zkBackend root).ensurePath path t = t := by
  rw [ensurePath_zk]
  exact foldl_touch_id _ _ (fun q hq => h q (List.mem_filter.1 hq).1 (List.mem_filter.1 hq).2)

theorem zkLookup_ensurePath_clean (root path : Str) (t : ZkTree)
    (hvalid : validPath path = true) (hclean : cleanPath path = true) :
    zkLookup path ((zkBackend root).ensurePath path t) =
      if (zkLookup path t).isSome then zkLookup path t else some emptyNode := by
  rw [zkLookup_ensurePath]
  simp [cleanPath_mem_runningPaths path hclean, hvalid]

theorem Get_zk (root key : Str) (t : ZkTree) (hvalid : validPath (root ++ key) = true)
    (hroot : root ++ key ≠ ['/']) :
    (zkBackend root).Get key t =
      match zkLookup (root ++ key) ((zkBackend root).ensurePath (root ++ key) t) with
      | none => ((none, some .ErrNoNode), (zkBackend root).ensurePath (root ++ key) t)
      | some z =>
        if z.data = none then ((none, none), (zkBackend root).ensurePath (root ++ key) t)
        else ((some { Key := key, Value := z.data }, none),
          (zkBackend root).ensurePath (root ++ key) t) := by
  unfold ZookeeperBackend.Get
  have hc : (zkBackend root).client = zkClient := rfl
  have hp : (zkBackend root).path = root := rfl
  simp only [hc, hp]
  generalize (zkBackend root).ensurePath (root ++ key) t = t1
  simp only [zkClient, zkGet, hvalid, zkNode_of_ne_root _ t1 hroot]
  cases zkLookup (root ++ key) t1 <;> simp

theorem Put_zk (root : Str) (entry : Entry) (t : ZkTree) :
    (zkBackend root).Put entry t =
      zkSet (root ++ entry.Key) entry.Value 0 ((zkBackend root).ensurePath (root ++ entry.Key) t) :=
  rfl

theorem Delete_zk (root key : Str) (t : ZkTree) (hvalid : validPath (root ++ key) = true)
    (hroot : root ++ key ≠ ['/']) :
    (zkBackend root).Delete key t =
      if (zkLookup (root ++ key) t).isSome then zkDelete (root ++ key) (-1) t else (none, t) := by
  simp [ZookeeperBackend.Delete, zkBackend, zkClient, zkExists, hvalid,
    zkNode_of_ne_root _ t hroot]

theorem isSome_ensurePath_iff (root path q : Str) (t : ZkTree) :
    (zkLookup q ((zkBackend root).ensurePath path t)).isSome = true ↔
      ((zkLookup q t).isSome = true ∨ (q ∈ runningPaths path ∧ validPath q = true)) := by
  rw [zkLookup_ensurePath]
  by_cases h : (zkLookup q t).isSome = true
  · simp [h]
  · by_cases hq : q ∈ runningPaths path ∧ validPath q = true
    · simp [h, hq]
    · rw [if_neg h, if_neg hq]
      simp [h, hq]

theorem ensurePath_zk_idem (root path : Str) (t : ZkTree) :
    (zkBackend root).ensurePath path ((zkBackend root).ensurePath path t)
      = (zkBackend root).ensurePath path t :=
  ensurePath_zk_id root path _
    (fun q hq hv => (isSome_ensurePath_iff root path q t).2 (Or.inr ⟨hq, hv⟩))

theorem zkWrite_of_isSome (p : Str) (d : Bytes) (t : ZkTree) (h : (zkLookup p t).isSome = true) :
    zkWrite p d t = zkModify p (fun z => { data := d, version := z.version + 1 }) t := by
  simp [zkWrite, h]

theorem zkSet_of_version (p : Str) (d : Bytes) (t : ZkTree) (z : Znode)
    (hvalid : validPath p = true) (hz : zkLookup p t = some z) (hv : z.version = 0) :
    zkSet p d 0 t = (none, zkModify p (fun z => { data := d, version := z.version + 1 }) t) := by
  have hn : zkNode p t = some z := by simp [zkNode, hz]
  have hw := zkWrite_of_isSome p d t (by simp [hz])
  simp [zkSet, hvalid, hn, hv, hw]

theorem zkSet_of_ok (p : Str) (d : Bytes) (v : Int) (t : ZkTree) (hroot : p ≠ ['/'])
    (h : (zkSet p d v t).1 = none) :
    validPath p = true ∧ ∃ z, zkLookup p t = some z ∧
      zkSet p d v t = (none, zkModify p (fun z => { data := d, version := z.version + 1 }) t) := by
  by_cases hvalid : validPath p = true
  · refine ⟨hvalid, ?_⟩
    unfold zkSet at h ⊢
    rw [if_neg (by simp [hvalid]), zkNode_of_ne_root p t hroot] at h ⊢
    cases hz : zkLookup p t with
    | none => rw [hz] at h; simp at h
    | some z =>
      rw [hz] at h
      refine ⟨z, rfl, ?_⟩
      by_cases hv : v ≠ -1 ∧ v ≠ z.version
      · simp only [if_pos hv] at h
        simp at h
      · simp only [if_neg hv]
        rw [zkWrite_of_isSome p d t (by simp [hz])]
  · unfold zkSet at h
    rw [if_pos (by simp [hvalid])] at h
    simp at h

theorem Get_zk_absent (root key : Str) (t : ZkTree)
    (hvalid : validPath (root ++ key) = true)
    (hclean : cleanPath (root ++ key) = true)
    (hnew : ∀ z, zkLookup (root ++ key) t = some z → z.data = none) :
    (zkBackend root).Get key t
      = ((none, none), (zkBackend root).ensurePath (root ++ key) t) := by
  have hl := zkLookup_ensurePath_clean root (root ++ key) t hvalid hclean
  rw [Get_zk root key t hvalid (cleanPath_ne_root _ hclean)]
  cases hz : zkLookup (root ++ key) t with
  | none =>
    rw [hz] at hl
    simp at hl
    rw [hl]
    simp [emptyNode]
  | some z =>
    rw [hz] at hl
    simp at hl
    rw [hl]
    simp [hnew z hz]

theorem ensurePath_zk_modify (root path p : Str) (f : Znode → Znode) (t : ZkTree) :
    (zkBackend root).ensurePath path (zkModify p f ((zkBackend root).ensurePath path t))
      = zkModify p f ((zkBackend root).ensurePath path t) := by
  apply ensurePath_zk_id
  intro q hq hv
  have h := (isSome_ensurePath_iff root path q t).2 (Or.inr ⟨hq, hv⟩)
  rw [zkLookup_modify]
  by_cases hqp : q = p
  · simp [hqp]
    rw [hqp] at h
    simpa using h
  · simp [hqp, h]
/-! ## Sorting: lemmas -/

theorem strLe_total (a b : Str) : strLe a b = true ∨ strLe b a = true := by
  induction a generalizing b with
  | nil => simp [strLe]
  | cons x xs ih =>
    cases b with
    | nil => simp [strLe]
    | cons y ys =>
      simp only [strLe, Bool.or_eq_true, decide_eq_true_eq, Bool.and_eq_true, beq_iff_eq]
      rcases Nat.lt_trichotomy x.toNat y.toNat with h | h | h
      · exact Or.inl (Or.inl h)
      · have hxy : x = y := Char.ext (UInt32.ext (by simpa [Char.toNat] using h))
        rcases ih ys with h' | h'
        · exact Or.inl (Or.inr ⟨hxy, h'⟩)
        · exact Or.inr (Or.inr ⟨hxy.symm, h'⟩)
      · exact Or.inr (Or.inl h)

theorem strLe_antisymm (a b : Str) (h1 : strLe a b = true) (h2 : strLe b a = true) : a = b := by
  induction a generalizing b with
  | nil =>
    cases b with
    | nil => rfl
    | cons y ys => simp [strLe] at h2
  | cons x xs ih =>
    cases b with
    | nil => simp [strLe] at h1
    | cons y ys =>
      simp only [strLe, Bool.or_eq_true, decide_eq_true_eq, Bool.and_eq_true, beq_iff_eq] at h1 h2
      rcases h1 with h1 | ⟨e1, h1⟩
      · rcases h2 with h2 | ⟨e2, _⟩
        · omega
        · subst e2; omega
      · subst e1
        rcases h2 with h2 | ⟨_, h2⟩
        · omega
        · rw [ih ys h1 h2]

theorem strLe_trans (a b c : Str) (h1 : strLe a b = true) (h2 : strLe b c = true) :
    strLe a c = true := by
  induction a generalizing b c with
  | nil => simp [strLe]
  | cons x xs ih =>
    cases b with
    | nil => simp [strLe] at h1
    | cons y ys =>
      cases c with
      | nil => simp [strLe] at h2
      | cons z zs =>
        simp only [strLe, Bool.or_eq_true, decide_eq_true_eq, Bool.and_eq_true, beq_iff_eq]
          at h1 h2 ⊢
        rcases h1 with h1 | ⟨e1, h1⟩
        · rcases h2 with h2 | ⟨e2, _⟩
          · exact Or.inl (by omega)
          · subst e2; exact Or.inl h1
        · subst e1
          rcases h2 with h2 | ⟨e2, h2⟩
          · exact Or.inl h2
          · exact Or.inr ⟨e2, ih ys zs h1 h2⟩

instance strLe_isTotal : IsTotal Str (fun a b => strLe a b = true) := ⟨strLe_total⟩

instance strLe_isTrans : IsTrans Str (fun a b => strLe a b = true) := ⟨strLe_trans⟩

instance strLe_isAntisymm : IsAntisymm Str (fun a b => strLe a b = true) := ⟨strLe_antisymm⟩

theorem sortStrings_sorted (l : List Str) :
    List.Sorted (fun a b => strLe a b = true) (sortStrings l) :=
  List.sorted_insertionSort _ l

theorem sortStrings_perm (l : List Str) : (sortStrings l).Perm l :=
  List.perm_insertionSort _ l

theorem sortStrings_congr (l₁ l₂ : List Str) (h : l₁.Perm l₂) : sortStrings l₁ = sortStrings l₂ :=
  List.eq_of_perm_of_sorted
    (((sortStrings_perm l₁).trans h).trans (sortStrings_perm l₂).symm)
    (sortStrings_sorted l₁) (sortStrings_sorted l₂)

/-! ## The listing loop: lemmas -/

theorem listStep_pure {σ : Type} (client : Client σ) (fullPath : Str)
    (hpure : ∀ p s, (client.Children p s).2 = s)
    (hfail : ∀ p s, (client.Children p s).1.2 ≠ none → (client.Children p s).1.1 = [])
    (acc : List Str) (s : σ) (key : Str) :
    listStep client fullPath (acc, s) key = (acc ++ listEntries client fullPath s [key], s) := by
  unfold listStep listEntries enumerated
  simp only [hpure, List.flatMap_cons, List.flatMap_nil, List.append_nil]
  by_cases herr : (client.Children (fullPath ++ '/' :: key) s).1.2 = none
  · by_cases hlen : (client.Children (fullPath ++ '/' :: key) s).1.1 = []
    · simp [herr, hlen]
    · have : (client.Children (fullPath ++ '/' :: key) s).1.1.length > 0 :=
        List.length_pos.2 hlen
      simp [herr, hlen, this]
  · have hnil := hfail _ _ herr
    simp [herr, hnil]

theorem listLoop_pure {σ : Type} (client : Client σ) (fullPath : Str)
    (hpure : ∀ p s, (client.Children p s).2 = s)
    (hfail : ∀ p s, (client.Children p s).1.2 ≠ none → (client.Children p s).1.1 = [])
    (kids : List Str) (acc : List Str) (s : σ) :
    kids.foldl (listStep client fullPath) (acc, s)
      = (acc ++ listEntries client fullPath s kids, s) := by
  induction kids generalizing acc with
  | nil => simp [listEntries]
  | cons k ks ih =>
    simp only [List.foldl_cons]
    rw [listStep_pure client fullPath hpure hfail, ih]
    simp [listEntries]

theorem List_pure {σ : Type} (c : ZookeeperBackend σ) (pfx : Str) (s : σ)
    (hpure : ∀ p s', (c.client.Children p s').2 = s')
    (hfail : ∀ p s', (c.client.Children p s').1.2 ≠ none → (c.client.Children p s').1.1 = []) :
    c.List pfx s
      = ((listReference c pfx (c.ensurePath (TrimSuffix (c.path ++ pfx) ['/']) s), none),
          c.ensurePath (TrimSuffix (c.path ++ pfx) ['/']) s) := by
  unfold ZookeeperBackend.List listReference
  simp only [hpure]
  rw [listLoop_pure c.client _ hpure hfail]
  have : enumerated c.client (TrimSuffix (c.path ++ pfx) ['/'])
      (c.ensurePath (TrimSuffix (c.path ++ pfx) ['/']) s)
      = (c.client.Children (TrimSuffix (c.path ++ pfx) ['/'])
          (c.ensurePath (TrimSuffix (c.path ++ pfx) ['/']) s)).1.1 := by
    unfold enumerated
    by_cases herr : (c.client.Children (TrimSuffix (c.path ++ pfx) ['/'])
          (c.ensurePath (TrimSuffix (c.path ++ pfx) ['/']) s)).1.2 = none
    · rw [if_pos herr]
    · rw [if_neg herr]; exact (hfail _ _ herr).symm
  rw [this]
  simp

/-! ## Root path: lemmas -/

theorem newZookeeperBackend_path {σ : Type} (Connect : List Str → Except ZkError (Client σ))
    (conf : Str → Option Str) (b : ZookeeperBackend σ)
    (h : newZookeeperBackend Connect conf = .ok b) :
    b.path = normalizedRoot ((conf "path".toList).getD "vault/".toList) := by
  unfold newZookeeperBackend at h
  have hp : (match conf "path".toList with | some p => p | none => "vault/".toList)
      = (conf "path".toList).getD "vault/".toList := by
    cases conf "path".toList <;> rfl
  simp only [hp] at h
  split at h
  · cases h
  · simp only [Except.ok.injEq] at h
    rw [← h]
    rfl

theorem HasSuffix_eq_reverse (s suf : Str) : HasSuffix s suf = HasPrefix s.reverse suf.reverse := rfl

theorem HasPrefix_reverse (s suf : Str) : HasPrefix s.reverse suf = HasSuffix s suf.reverse := by
  rw [HasSuffix_eq_reverse, List.reverse_reverse]

theorem normalizedRoot_eq_padded (p : Str) (hp : p ≠ []) : normalizedRoot p = padded p := by
  cases p with
  | nil => exact absurd rfl hp
  | cons a r =>
    unfold normalizedRoot padded
    by_cases ha : a = '/'
    · subst ha
      by_cases hs : HasSuffix ('/' :: r) ['/'] = true
      · simp [hs, HasPrefix, List.isPrefixOf]
      · simp [hs, HasPrefix, List.isPrefixOf]
    · have ha' : ¬ '/' = a := fun e => ha e.symm
      by_cases hs : HasSuffix (a :: r) ['/'] = true
      · simp [hs, ha', HasPrefix, List.isPrefixOf]
      · simp [hs, ha', HasPrefix, List.isPrefixOf]

theorem padded_reverse (p : Str) : (padded p).reverse = padded p.reverse := by
  unfold padded
  rw [HasPrefix_reverse, HasSuffix_eq_reverse p.reverse, List.reverse_reverse]
  by_cases h1 : HasPrefix p ['/'] = true <;> by_cases h2 : HasSuffix p ['/'] = true <;>
    simp [h1, h2]

theorem padded_HasPrefix (p : Str) (hp : p ≠ []) : HasPrefix (padded p) ['/'] = true := by
  cases p with
  | nil => exact absurd rfl hp
  | cons a r =>
    unfold padded
    by_cases ha : a = '/'
    · subst ha
      simp [HasPrefix, List.isPrefixOf]
    · have ha' : ¬ '/' = a := fun e => ha e.symm
      simp [ha', HasPrefix, List.isPrefixOf]

theorem padded_HasPrefix_double (p : Str) (hp : p ≠ []) :
    HasPrefix (padded p) ['/', '/'] = HasPrefix p ['/', '/'] := by
  cases p with
  | nil => exact absurd rfl hp
  | cons a r =>
    unfold padded
    by_cases ha : a = '/'
    · subst ha
      cases r with
      | nil => decide
      | cons b r' => simp [HasPrefix, List.isPrefixOf]
    · have ha' : ¬ '/' = a := fun e => ha e.symm
      simp [ha', HasPrefix, List.isPrefixOf]

theorem normalizedRoot_facts (p : Str) :
    HasPrefix (normalizedRoot p) ['/'] = true ∧ HasSuffix (normalizedRoot p) ['/'] = true ∧
    HasPrefix (normalizedRoot p) ['/', '/'] = HasPrefix p ['/', '/'] ∧
    HasSuffix (normalizedRoot p) ['/', '/'] = HasSuffix p ['/', '/'] := by
  by_cases hp : p = []
  · subst hp; decide
  · have hr : p.reverse ≠ [] := by simpa using hp
    rw [normalizedRoot_eq_padded p hp]
    refine ⟨padded_HasPrefix p hp, ?_, padded_HasPrefix_double p hp, ?_⟩
    · rw [HasSuffix_eq_reverse, padded_reverse]
      exact padded_HasPrefix _ hr
    · rw [HasSuffix_eq_reverse, padded_reverse, HasSuffix_eq_reverse p]
      exact padded_HasPrefix_double _ hr
/-! ## The claims -/

/-- C10 (amended): on the reference tree store, when the store accepts every
running path of `path` (its calls succeed), after `ensurePath path` a node
exists exactly when it existed before or is a running path of `path`, where
the running paths skip the segments that are empty once white space is
trimmed; the nodes that existed keep their content and version, the new ones
have null content and version 0; when no segment of `path` but the leading one
is blank, the node at `path` itself exists; a second `ensurePath path` leaves
the store as it is. -/
theorem ensurePath_post_state (root path : Str) (t : ZkTree)
    (hvalid : ∀ q ∈ runningPaths path, validPath q = true) :
    (∀ q, (zkLookup q ((zkBackend root).ensurePath path t)).isSome = true ↔
      ((zkLookup q t).isSome = true ∨ q ∈ runningPaths path)) ∧
    (∀ q, (zkLookup q t).isSome = true →
      zkLookup q ((zkBackend root).ensurePath path t) = zkLookup q t) ∧
    (∀ q, zkLookup q t = none → q ∈ runningPaths path →
      zkLookup q ((zkBackend root).ensurePath path t) = some emptyNode) ∧
    (cleanPath path = true →
      (zkLookup path ((zkBackend root).ensurePath path t)).isSome = true) ∧
    (zkBackend root).ensurePath path ((zkBackend root).ensurePath path t)
      = (zkBackend root).ensurePath path t := by
  have key : ∀ q, (zkLookup q ((zkBackend root).ensurePath path t)).isSome = true ↔
      ((zkLookup q t).isSome = true ∨ q ∈ runningPaths path) := by
    intro q
    rw [isSome_ensurePath_iff]
    constructor
    · rintro (h | ⟨h, _⟩)
      · exact Or.inl h
      · exact Or.inr h
    · rintro (h | h)
      · exact Or.inl h
      · exact Or.inr ⟨h, hvalid q h⟩
  refine ⟨key, ?_, ?_, ?_, ensurePath_zk_idem root path t⟩
  · intro q h
    rw [zkLookup_ensurePath]; simp [h]
  · intro q h hq
    rw [zkLookup_ensurePath]; simp [h, hq, hvalid q hq]
  · intro hclean
    exact (key path).2 (Or.inr (cleanPath_mem_runningPaths path hclean))

/-- C5 (amended): on the reference tree store, when `root + key` is a valid
znode path, none of its segments but the leading one is blank and the node at
`root + key` is absent or holds null content (no value was ever put there),
`Get key` returns no entry and no error. -/
theorem get_unwritten_absent (root key : Str) (t : ZkTree)
    (hvalid : validPath (root ++ key) = true)
    (hclean : cleanPath (root ++ key) = true)
    (hnew : ∀ z, zkLookup (root ++ key) t = some z → z.data = none) :
    (zkBackend root).Get key t
      = ((none, none), (zkBackend root).ensurePath (root ++ key) t) :=
  Get_zk_absent root key t hvalid hclean hnew

/-- C6: on the reference tree store, when the existence check of
`root + key` succeeds and finds no node, `Delete key` returns no error and
leaves the store exactly as it was. -/
theorem delete_absent_noop (root key : Str) (t : ZkTree)
    (hcheck : (zkExists (root ++ key) t).1 = (false, none)) :
    (zkBackend root).Delete key t = (none, t) := by
  have hs : (zkExists (root ++ key) t).2 = t := by
    unfold zkExists; split <;> rfl
  have h1 : (zkExists (root ++ key) t).1.1 = false := by rw [hcheck]
  have h2 : (zkExists (root ++ key) t).1.2 = none := by rw [hcheck]
  show (if (zkExists (root ++ key) t).1.2 ≠ none then
      ((zkExists (root ++ key) t).1.2, (zkExists (root ++ key) t).2)
    else if (zkExists (root ++ key) t).1.1 = true then
      zkDelete (root ++ key) (-1) (zkExists (root ++ key) t).2
    else (none, (zkExists (root ++ key) t).2)) = (none, t)
  rw [if_neg (by simp [h2]), if_neg (by simp [h1]), hs]

/-- C1 (amended): on the reference tree store, when `root + key` is a valid
znode path, none of its segments but the leading one is blank, the value is a
non-nil byte slice and the node at `root + key` is absent or still has data
version 0 (nothing was written to it), `Put` returns no error and the following
`Get key` returns the entry with that key and exactly that value. -/
theorem put_get_round_trip (root key : Str) (v : List (Fin 256)) (t : ZkTree)
    (hvalid : validPath (root ++ key) = true)
    (hclean : cleanPath (root ++ key) = true)
    (hnew : ∀ z, zkLookup (root ++ key) t = some z → z.version = 0) :
    ((zkBackend root).Put { Key := key, Value := some v } t).1 = none ∧
    ((zkBackend root).Get key ((zkBackend root).Put { Key := key, Value := some v } t).2).1
      = (some { Key := key, Value := some v }, none) := by
  have hl := zkLookup_ensurePath_clean root (root ++ key) t hvalid hclean
  obtain ⟨z1, hz1, hv1⟩ : ∃ z1,
      zkLookup (root ++ key) ((zkBackend root).ensurePath (root ++ key) t) = some z1 ∧
        z1.version = 0 := by
    cases hz : zkLookup (root ++ key) t with
    | none =>
      rw [hz] at hl
      exact ⟨emptyNode, by simpa using hl, rfl⟩
    | some z =>
      rw [hz] at hl
      exact ⟨z, by simpa using hl, hnew z hz⟩
  have hput := zkSet_of_version (root ++ key) (some v) _ z1 hvalid hz1 hv1
  rw [Put_zk]
  simp only
  rw [hput]
  refine ⟨rfl, ?_⟩
  rw [Get_zk root key _ hvalid (cleanPath_ne_root _ hclean), ensurePath_zk_modify,
    zkLookup_modify, hz1]
  simp

/-- C7 (amended): on the reference tree store, when no segment of `root + key`
but the leading one is blank, `Put` of the key succeeded and the node at
`root + key` has no child, `Delete key` returns no error and removes that node
and no other (every other node keeps its content and version), and the
following `Get key` returns no entry and no error. -/
theorem delete_after_put (root key : Str) (value : Bytes) (t : ZkTree)
    (hclean : cleanPath (root ++ key) = true)
    (hput : ((zkBackend root).Put { Key := key, Value := value } t).1 = none)
    (hleaf : zkChildNames (root ++ key)
      ((zkBackend root).Put { Key := key, Value := value } t).2 = []) :
    ((zkBackend root).Delete key
        ((zkBackend root).Put { Key := key, Value := value } t).2).1 = none ∧
    (∀ q, zkLookup q ((zkBackend root).Delete key
        ((zkBackend root).Put { Key := key, Value := value } t).2).2 =
      if q = root ++ key then none
      else zkLookup q ((zkBackend root).Put { Key := key, Value := value } t).2) ∧
    ((zkBackend root).Get key ((zkBackend root).Delete key
        ((zkBackend root).Put { Key := key, Value := value } t).2).2).1 = (none, none) := by
  have hroot := cleanPath_ne_root _ hclean
  rw [Put_zk] at hput hleaf ⊢
  simp only at hput hleaf ⊢
  obtain ⟨hvalid, z, hz, hset⟩ := zkSet_of_ok _ _ _ _ hroot hput
  rw [hset] at hleaf ⊢
  simp only at hleaf ⊢
  have hex : zkLookup (root ++ key)
      (zkModify (root ++ key) (fun z => { data := value, version := z.version + 1 })
        ((zkBackend root).ensurePath (root ++ key) t)) =
      some { data := value, version := z.version + 1 } := by
    rw [zkLookup_modify, hz]; simp
  have hdel : (zkBackend root).Delete key
      (zkModify (root ++ key) (fun z => { data := value, version := z.version + 1 })
        ((zkBackend root).ensurePath (root ++ key) t)) =
      (none, (zkModify (root ++ key) (fun z => { data := value, version := z.version + 1 })
        ((zkBackend root).ensurePath (root ++ key) t)).filter (fun e => e.1 ≠ root ++ key)) := by
    rw [Delete_zk _ _ _ hvalid hroot, hex]
    simp [zkDelete, hvalid, hroot, hex, hleaf]
  rw [hdel]
  refine ⟨rfl, fun q => zkLookup_filter q _ _, ?_⟩
  rw [Get_zk_absent root key _ hvalid hclean]
  intro z' hz'
  rw [zkLookup_filter] at hz'
  simp at hz'

/-- C4: for a client whose enumerations leave the store as it is and return no
children when they fail, `List` returns a nil error and the reference listing
of the store after ancestor materialisation (each child of the trimmed path,
followed by the child with a trailing `/` when the enumeration of its own
children is non-empty, a failed enumeration counting as empty, the whole
sorted); the result is sorted, is the same for every order in which the
children are reported, and is empty when the path has no children. -/
theorem List_eq_reference {σ : Type} (c : ZookeeperBackend σ) (pfx : Str) (s : σ)
    (hpure : ∀ p s', (c.client.Children p s').2 = s')
    (hfail : ∀ p s', (c.client.Children p s').1.2 ≠ none → (c.client.Children p s').1.1 = []) :
    (c.List pfx s).1.2 = none ∧
    (c.List pfx s).1.1
      = listReference c pfx (c.ensurePath (TrimSuffix (c.path ++ pfx) ['/']) s) ∧
    List.Sorted (fun a b => strLe a b = true) (c.List pfx s).1.1 ∧
    (∀ kids, kids.Perm (enumerated c.client (TrimSuffix (c.path ++ pfx) ['/'])
        (c.ensurePath (TrimSuffix (c.path ++ pfx) ['/']) s)) →
      sortStrings (listEntries c.client (TrimSuffix (c.path ++ pfx) ['/'])
        (c.ensurePath (TrimSuffix (c.path ++ pfx) ['/']) s) kids) = (c.List pfx s).1.1) ∧
    (enumerated c.client (TrimSuffix (c.path ++ pfx) ['/'])
        (c.ensurePath (TrimSuffix (c.path ++ pfx) ['/']) s) = [] →
      (c.List pfx s).1.1 = []) := by
  rw [List_pure c pfx s hpure hfail]
  refine ⟨rfl, rfl, sortStrings_sorted _, ?_, ?_⟩
  · intro kids hkids
    exact sortStrings_congr _ _ (List.Perm.flatMap_right _ hkids)
  · intro hnil
    unfold listReference
    rw [hnil]
    rfl

/-- Witness of C4: on the store holding `a`, `b/c`, `b/d` with every
enumeration failing, `List` of the empty prefix is the empty list with a nil
error. -/
theorem List_eq_reference_witness :
    (∀ p s', (zkClientChildrenDown.Children p s').2 = s') ∧
    (∀ p s', (zkClientChildrenDown.Children p s').1.2 ≠ none →
      (zkClientChildrenDown.Children p s').1.1 = []) ∧
    (({ path := "/vault/".toList, client := zkClientChildrenDown } :
        ZookeeperBackend ZkTree).List [] abcTree).1 = ([], none) := by
  have h := List_eq_reference
    ({ path := "/vault/".toList, client := zkClientChildrenDown } : ZookeeperBackend ZkTree)
    [] abcTree (fun _ _ => rfl) (fun _ _ _ => rfl)
  refine ⟨fun _ _ => rfl, fun _ _ _ => rfl, ?_⟩
  exact Prod.ext (h.2.2.2.2 rfl) h.1

/-- C9: whatever the client answers to the `exists` and `create` calls of
ancestor materialisation, `Put` returns the result of its `set` call on the
store materialisation left, `Get` returns the error of its leaf read, and with
it a nil entry when that error is not nil. -/
theorem leaf_error_only {σ : Type} (c : ZookeeperBackend σ) (key : Str) (value : Bytes) (s : σ) :
    (c.Put { Key := key, Value := value } s).1
      = (c.client.Set (c.path ++ key) value 0 (c.ensurePath (c.path ++ key) s)).1 ∧
    (c.Get key s).1.2 = (c.client.Get (c.path ++ key) (c.ensurePath (c.path ++ key) s)).1.2 ∧
    ((c.client.Get (c.path ++ key) (c.ensurePath (c.path ++ key) s)).1.2 ≠ none →
      (c.Get key s).1.1 = none) := by
  refine ⟨rfl, ?_, ?_⟩
  · unfold ZookeeperBackend.Get
    by_cases h : (c.client.Get (c.path ++ key) (c.ensurePath (c.path ++ key) s)).1.2 = none
    · by_cases h' : (c.client.Get (c.path ++ key) (c.ensurePath (c.path ++ key) s)).1.1 = none
      · simp [h, h']
      · simp [h, h']
    · simp [h]
  · intro h
    unfold ZookeeperBackend.Get
    simp [h]

/-- Witness of C9: with every `exists` and `create` call failing for
connectivity, `Get` of `k` on the empty store reports the missing node of its
leaf read, not the connection error, and no entry. -/
theorem leaf_error_only_witness :
    (zkClientMaterializationDown.Get "/vault/k".toList
      (({ path := "/vault/".toList, client := zkClientMaterializationDown } :
        ZookeeperBackend ZkTree).ensurePath "/vault/k".toList [])).1.2 ≠ none ∧
    (({ path := "/vault/".toList, client := zkClientMaterializationDown } :
        ZookeeperBackend ZkTree).Get "k".toList []).1 = (none, some .ErrNoNode) := by
  have h := leaf_error_only
    ({ path := "/vault/".toList, client := zkClientMaterializationDown } : ZookeeperBackend ZkTree)
    "k".toList none []
  have hne : (zkClientMaterializationDown.Get "/vault/k".toList
      (({ path := "/vault/".toList, client := zkClientMaterializationDown } :
        ZookeeperBackend ZkTree).ensurePath "/vault/k".toList [])).1.2 ≠ none := by decide
  exact ⟨hne, Prod.ext (h.2.2 hne) (h.2.1.trans (by decide))⟩

/-- C3 (amended): on the reference tree store, `List` is the sorted list that
holds, for each child of the trimmed path, the bare child name and, when the
child has a child of its own, also the child name with a trailing `/`; on the
store holding the keys `a`, `b/c`, `b/d` the empty prefix lists `a`, `b`, `b/`
and the prefix `b` lists `c`, `d`. -/
theorem List_directory_markers (root pfx : Str) (t : ZkTree) :
    ((zkBackend root).List pfx t).1.1 =
      sortStrings (((zkChildren (TrimSuffix (root ++ pfx) ['/'])
          ((zkBackend root).ensurePath (TrimSuffix (root ++ pfx) ['/']) t)).1.1).flatMap
        (fun ch =>
          if (zkChildren (TrimSuffix (root ++ pfx) ['/'] ++ '/' :: ch)
              ((zkBackend root).ensurePath (TrimSuffix (root ++ pfx) ['/']) t)).1.1 ≠ []
          then [ch, ch ++ ['/']] else [ch])) ∧
    (vault.List [] abcTree).1.1 = ["a".toList, "b".toList, "b/".toList] ∧
    (vault.List "b".toList abcTree).1.1 = ["c".toList, "d".toList] := by
  have hpure : ∀ p s', ((zkBackend root).client.Children p s').2 = s' := by
    intro p s'
    show (zkChildren p s').2 = s'
    unfold zkChildren
    split
    · rfl
    · cases zkNode p s' <;> rfl
  have hfail : ∀ p s', ((zkBackend root).client.Children p s').1.2 ≠ none →
      ((zkBackend root).client.Children p s').1.1 = [] := by
    intro p s'
    show (zkChildren p s').1.2 ≠ none → (zkChildren p s').1.1 = []
    unfold zkChildren
    split
    · intro _; rfl
    · cases zkNode p s' <;> simp
  have henum : ∀ p s', enumerated (zkBackend root).client p s' = (zkChildren p s').1.1 := by
    intro p s'
    unfold enumerated
    by_cases herr : ((zkBackend root).client.Children p s').1.2 = none
    · rw [if_pos herr]; rfl
    · rw [if_neg herr]; exact (hfail p s' herr).symm
  refine ⟨?_, by decide, by decide⟩
  rw [List_pure (zkBackend root) pfx t hpure hfail]
  simp only [listReference, listEntries, henum]
  rfl

/-- Counterexample to C3: on the store holding the keys `a`, `b/c`, `b/d` the
listing of the empty prefix has the three entries `a`, `b`, `b/`; it is not
`a`, `b/`. -/
theorem List_directory_markers_counterexample :
    (vault.List [] abcTree).1 = (["a".toList, "b".toList, "b/".toList], none) ∧
    (vault.List [] abcTree).1.1 ≠ ["a".toList, "b/".toList] := by
  decide

/-- C2, the failing input: on the empty store the first `Put` of `k` succeeds,
the second fails with a bad version and the value read back is the first one. -/
theorem put_twice_bad_version :
    (vault.Put { Key := "k".toList, Value := some [1] } []).1 = none ∧
    (vault.Put { Key := "k".toList, Value := some [2] }
      (vault.Put { Key := "k".toList, Value := some [1] } []).2).1 = some .ErrBadVersion ∧
    (vault.Get "k".toList (vault.Put { Key := "k".toList, Value := some [2] }
      (vault.Put { Key := "k".toList, Value := some [1] } []).2).2).1
      = (some { Key := "k".toList, Value := some [1] }, none) := by
  decide

/-- C8 (amended): the root path of a constructed backend is the configured
path with a `/` put in front when it does not start with one and a `/` put
behind when it does not end with one, and `/` for the empty path: a separator
is added where one is missing and none is removed.  So the root starts with
`/` and ends with `/`, starts with `//` exactly when the configured path does
and ends with `//` exactly when the configured path does; the configured paths
`foo` and `/foo/` both give `/foo/`, and no configured path gives `/vault/`,
the root of the configured path `vault/`. -/
theorem root_path_normalized {σ : Type} (Connect : List Str → Except ZkError (Client σ))
    (conf : Str → Option Str) (b : ZookeeperBackend σ)
    (h : newZookeeperBackend Connect conf = .ok b) :
    ((conf "path".toList).getD "vault/".toList ≠ [] →
      b.path = padded ((conf "path".toList).getD "vault/".toList)) ∧
    ((conf "path".toList).getD "vault/".toList = [] → b.path = ['/']) ∧
    HasPrefix b.path ['/'] = true ∧ HasSuffix b.path ['/'] = true ∧
    HasPrefix b.path ['/', '/']
      = HasPrefix ((conf "path".toList).getD "vault/".toList) ['/', '/'] ∧
    HasSuffix b.path ['/', '/']
      = HasSuffix ((conf "path".toList).getD "vault/".toList) ['/', '/'] ∧
    (conf "path".toList = some "foo".toList → b.path = "/foo/".toList) ∧
    (conf "path".toList = some "/foo/".toList → b.path = "/foo/".toList) ∧
    (conf "path".toList = none → b.path = "/vault/".toList) ∧
    (conf "path".toList = some "vault/".toList → b.path = "/vault/".toList) := by
  have hb := newZookeeperBackend_path Connect conf b h
  have hf := normalizedRoot_facts ((conf "path".toList).getD "vault/".toList)
  rw [← hb] at hf
  refine ⟨?_, ?_, hf.1, hf.2.1, hf.2.2.1, hf.2.2.2, ?_, ?_, ?_, ?_⟩
  · intro hne; rw [hb, normalizedRoot_eq_padded _ hne]
  · intro hnil; rw [hb, hnil]; rfl
  · intro hc; rw [hb, hc]; decide
  · intro hc; rw [hb, hc]; decide
  · intro hc; rw [hb, hc]; decide
  · intro hc; rw [hb, hc]; decide

/-- Witness of C8: the backend constructed from the path `foo` has the root
`/foo/`. -/
theorem root_path_normalized_witness :
    ∃ b, newZookeeperBackend connectZk (confPath "foo".toList) = .ok b ∧
      confPath "foo".toList "path".toList = some "foo".toList ∧ b.path = "/foo/".toList :=
  ⟨{ path := "/foo/".toList, client := zkClient }, rfl, rfl,
    (root_path_normalized connectZk (confPath "foo".toList)
      { path := "/foo/".toList, client := zkClient } rfl).2.2.2.2.2.2.1 rfl⟩

/-- Counterexample to C8: the configured path `//foo//` gives the root
`//foo//`, which starts with two separators and ends with two. -/
theorem root_path_normalized_counterexample :
    ∃ b, newZookeeperBackend connectZk (confPath "//foo//".toList) = .ok b ∧
      b.path = "//foo//".toList ∧
      HasPrefix b.path ['/', '/'] = true ∧ HasSuffix b.path ['/', '/'] = true :=
  ⟨{ path := "//foo//".toList, client := zkClient }, rfl, rfl, by decide, by decide⟩

/-- Witness of C1: on the empty store `Put` of `k` with the value `[1]`
succeeds and `Get` reads it back. -/
theorem put_get_round_trip_witness :
    validPath ("/vault/".toList ++ "k".toList) = true ∧
    cleanPath ("/vault/".toList ++ "k".toList) = true ∧
    (∀ z, zkLookup ("/vault/".toList ++ "k".toList) [] = some z → z.version = 0) ∧
    ((zkBackend "/vault/".toList).Put { Key := "k".toList, Value := some [1] } []).1 = none ∧
    ((zkBackend "/vault/".toList).Get "k".toList
      ((zkBackend "/vault/".toList).Put { Key := "k".toList, Value := some [1] } []).2).1
      = (some { Key := "k".toList, Value := some [1] }, none) :=
  ⟨by decide, by decide, fun _ h => absurd h (by simp [zkLookup]),
    put_get_round_trip "/vault/".toList "k".toList [1] [] (by decide) (by decide)
      (fun _ h => absurd h (by simp [zkLookup]))⟩

/-- Counterexample to C1: on the empty store `Put` of the key of one space
fails (its segment is skipped, so the leaf is never materialised), `Put` of
the key `.` and of the empty key fails (the store refuses the path), and `Put`
of `k` with a nil value succeeds but the following `Get` returns no entry. -/
theorem put_get_round_trip_counterexample :
    (vault.Put { Key := " ".toList, Value := some [1] } []).1 = some .ErrNoNode ∧
    cleanPath "/vault/.".toList = true ∧
    (vault.Put { Key := ".".toList, Value := some [1] } []).1 = some .ErrInvalidPath ∧
    (vault.Put { Key := "".toList, Value := some [1] } []).1 = some .ErrInvalidPath ∧
    (vault.Put { Key := "k".toList, Value := none } []).1 = none ∧
    (vault.Get "k".toList (vault.Put { Key := "k".toList, Value := none } []).2).1
      = (none, none) := by
  decide

/-- Witness of C6: on the empty store the existence check of `/vault/k`
succeeds and finds no node, and `Delete` of `k` returns no error and leaves
the store empty. -/
theorem delete_absent_noop_witness :
    (zkExists ("/vault/".toList ++ "k".toList) []).1 = (false, none) ∧
    (zkBackend "/vault/".toList).Delete "k".toList [] = (none, []) :=
  ⟨by decide, delete_absent_noop "/vault/".toList "k".toList [] (by decide)⟩

/-- Witness of C7: on the empty store, after `Put` of `k`, `Delete` of `k`
succeeds and `Get` of `k` returns no entry and no error. -/
theorem delete_after_put_witness :
    cleanPath ("/vault/".toList ++ "k".toList) = true ∧
    ((zkBackend "/vault/".toList).Put { Key := "k".toList, Value := some [1] } []).1 = none ∧
    zkChildNames ("/vault/".toList ++ "k".toList)
      ((zkBackend "/vault/".toList).Put { Key := "k".toList, Value := some [1] } []).2 = [] ∧
    ((zkBackend "/vault/".toList).Get "k".toList ((zkBackend "/vault/".toList).Delete "k".toList
      ((zkBackend "/vault/".toList).Put { Key := "k".toList, Value := some [1] } []).2).2).1
      = (none, none) :=
  ⟨by decide, by decide, by decide,
    (delete_after_put "/vault/".toList "k".toList (some [1]) [] (by decide) (by decide)
      (by decide)).2.2⟩

/-- Counterexample to C7: after `a/b` was put, `Put` of `a` succeeds and
`Delete` of `a` fails, the node having a child; and on a store that holds a
node named by one space, `Put` and `Delete` of that key succeed and the
following `Get` returns an error. -/
theorem delete_after_put_counterexample :
    (vault.Put { Key := "a".toList, Value := some [2] }
      (vault.Put { Key := "a/b".toList, Value := some [1] } []).2).1 = none ∧
    (vault.Delete "a".toList (vault.Put { Key := "a".toList, Value := some [2] }
      (vault.Put { Key := "a/b".toList, Value := some [1] } []).2).2).1 = some .ErrNotEmpty ∧
    (vault.Put { Key := " ".toList, Value := some [1] }
      [("/vault".toList, emptyNode), ("/vault/ ".toList, emptyNode)]).1 = none ∧
    (vault.Delete " ".toList (vault.Put { Key := " ".toList, Value := some [1] }
      [("/vault".toList, emptyNode), ("/vault/ ".toList, emptyNode)]).2).1 = none ∧
    (vault.Get " ".toList (vault.Delete " ".toList (vault.Put { Key := " ".toList, Value := some [1] }
      [("/vault".toList, emptyNode), ("/vault/ ".toList, emptyNode)]).2).2).1
      = (none, some .ErrNoNode) := by
  decide


/-- Witness of C10: the store accepts the running paths of `/vault/a/b`,
which has no blank segment, and on the empty store `ensurePath` leaves a node
at `/vault/a/b`. -/
theorem ensurePath_post_state_witness :
    (∀ q ∈ runningPaths "/vault/a/b".toList, validPath q = true) ∧
    cleanPath "/vault/a/b".toList = true ∧
    (zkLookup "/vault/a/b".toList
      ((zkBackend "/vault/".toList).ensurePath "/vault/a/b".toList [])).isSome = true :=
  ⟨by decide, by decide,
    (ensurePath_post_state "/vault/".toList "/vault/a/b".toList [] (by decide)).2.2.2.1
      (by decide)⟩

/-- Counterexample to C10: for the path `/vault/ /a` on the empty store, the
store accepts every path in question and `/vault/ ` is a running path when
exactly the empty segments are skipped, yet after `ensurePath` there is no
node at `/vault/ ` and none at `/vault/ /a`: the nodes are `/vault` and
`/vault/a`. -/
theorem ensurePath_post_state_counterexample :
    (∀ q ∈ runningPathsSkippingEmpty "/vault/ /a".toList, validPath q = true) ∧
    "/vault/ ".toList ∈ runningPathsSkippingEmpty "/vault/ /a".toList ∧
    zkLookup "/vault/ ".toList (vault.ensurePath "/vault/ /a".toList []) = none ∧
    zkLookup "/vault/ /a".toList (vault.ensurePath "/vault/ /a".toList []) = none ∧
    vault.ensurePath "/vault/ /a".toList []
      = [("/vault".toList, emptyNode), ("/vault/a".toList, emptyNode)] := by
  decide

/-- Witness of C5: `Get` of `k` on the empty store returns no entry and no
error. -/
theorem get_unwritten_absent_witness :
    validPath ("/vault/".toList ++ "k".toList) = true ∧
    cleanPath ("/vault/".toList ++ "k".toList) = true ∧
    (∀ z, zkLookup ("/vault/".toList ++ "k".toList) [] = some z → z.data = none) ∧
    ((zkBackend "/vault/".toList).Get "k".toList []).1 = (none, none) :=
  ⟨by decide, by decide, fun _ h => absurd h (by simp [zkLookup]),
    congrArg Prod.fst
      (get_unwritten_absent "/vault/".toList "k".toList [] (by decide) (by decide)
        (fun _ h => absurd h (by simp [zkLookup])))⟩

/-- Counterexample to C5: none of the keys of one space, `.` and the empty
key was ever written, and `Get` of each on the empty store returns an error:
the segment of one space is skipped by `ensurePath`, so the leaf read finds no
node; `/vault/.` has no blank segment but is not a path the store accepts; and
`/vault/` is neither. -/
theorem get_unwritten_absent_counterexample :
    (vault.Get " ".toList []).1 = (none, some .ErrNoNode) ∧
    cleanPath "/vault/.".toList = true ∧
    (vault.Get ".".toList []).1 = (none, some .ErrInvalidPath) ∧
    (vault.Get "".toList []).1 = (none, some .ErrInvalidPath) := by
  decide
